import Mathlib

/-
Shallow embedding of the record-dump parsing and classification engine of the
ofml-interpreter analysis scripts: analyze_framery_pricing.py,
analyze_framery.py, compare_framery_fast.py and
comprehensive_pricing_investigation.py.  Strings are modelled as lists of
characters (`Chars`), Python dicts as insertion-ordered association lists, so
that every definition is executable and every concrete claim can be settled by
evaluation.
-/

set_option autoImplicit false

/-- Text modelled as a list of characters, so all string operations of the
scripts (split, strip, startswith, substring search) are structural. -/
abbrev Chars := List Char

/-- An insertion-ordered dictionary, the shape Python dicts take in the
scripts.  The value type is a parameter because the text path stores strings
and the JSON path stores parsed JSON values. -/
abbrev Dict (α : Type) := List (Chars × α)

/-- A generic record of the text path: field name to string value, in
insertion order, exactly a Python dict built by repeated assignment. -/
abbrev GenericRecord := Dict Chars

/-- Python `d.get(k)`: the value stored at the first (and only) occurrence of
the key, or `none`. -/
def dget {α : Type} (k : Chars) : Dict α → Option α
  | [] => none
  | (k', v) :: r => if k' = k then some v else dget k r

/-- Python `d[k] = v` on a dict: overwrite in place if the key exists
(keeping its position), otherwise append at the end. -/
def dinsert {α : Type} (k : Chars) (v : α) : Dict α → Dict α
  | [] => [(k, v)]
  | (k', v') :: r => if k' = k then (k, v) :: r else (k', v') :: dinsert k v r

/-- The single-quote character, the value delimiter of the dump format. -/
def quoteChar : Char := '\''

/-- Python whitespace as recognized by `str.strip()` (ASCII subset, which is
all the dump format uses). -/
def isPySpace (c : Char) : Bool :=
  c == ' ' || c == '\t' || c == '\n' || c == '\r' || c == '\x0b' || c == '\x0c'

/-- Python `str.strip(chars)`: drop all leading and trailing characters
satisfying the predicate. -/
def pyStrip (f : Char → Bool) (l : Chars) : Chars :=
  ((l.dropWhile f).reverse.dropWhile f).reverse

/-- Python `line.strip()`. -/
def stripWS (l : Chars) : Chars := pyStrip isPySpace l

/-- Python `value.strip("'")` as used in `parse_price_records`: drops ALL
leading and trailing single quotes. -/
def stripQuotes (l : Chars) : Chars := pyStrip (· == quoteChar) l

/-- Python `output.split('\n')`: split on every newline; the result always has
one more element than the number of newlines, so it is never empty. -/
def splitLines : Chars → List Chars
  | [] => [[]]
  | c :: cs =>
    match splitLines cs with
    | [] => [[]]
    | l :: ls => if c = '\n' then [] :: l :: ls else (c :: l) :: ls

/-- Python `p in l` for strings: `p` occurs as a contiguous substring. -/
def containsSub (p : Chars) : Chars → Bool
  | [] => p.isEmpty
  | c :: cs => p.isPrefixOf (c :: cs) || containsSub p cs

/-- Python `line.split(':', 1)`: the text before the first colon, and the text
after it when a colon exists. -/
def splitColon1 : Chars → Chars × Option Chars
  | [] => ([], none)
  | c :: cs =>
    if c = ':' then ([], some cs)
    else
      let r := splitColon1 cs
      (c :: r.1, r.2)

/-- The token a line of the text dump is classified as, following the branch
structure of the loop in `parse_price_records`
(analyze_framery_pricing.py, lines 22-39). -/
inductive Token where
  | marker
  | boundary
  | field (key value : Chars)
  | ignorable
deriving DecidableEq

/-- The table-start marker `parse_price_records` waits for. -/
def markerStr : Chars := "=== Records from ocd_price".data

/-- The record-boundary test of `parse_price_records`:
`line.startswith('Record ')`. -/
def recordBoundaryPat : Chars := "Record ".data

/-- The banner test of `parse_price_records`:
`line.strip().startswith('Table:')`. -/
def tableBannerPat : Chars := "Table:".data

/-- Line classifier of `parse_price_records`: marker lines first, then
boundary lines, then colon lines that are not a `Table:` banner become fields
(key and value stripped, value additionally stripped of quotes), and
everything else is ignorable. -/
def classifyLine (line : Chars) : Token :=
  if containsSub markerStr line then .marker
  else if recordBoundaryPat.isPrefixOf line then .boundary
  else
    match splitColon1 line with
    | (k, some rest) =>
      if tableBannerPat.isPrefixOf (stripWS line) then .ignorable
      else .field (stripWS k) (stripQuotes (stripWS rest))
    | (_, none) => .ignorable

/-- The loop state of `parse_price_records`: the `in_records` flag, the
`current_record` accumulator and the list of emitted records. -/
structure PState where
  inRecords : Bool
  current : GenericRecord
  acc : List GenericRecord
deriving DecidableEq

/-- Initial parser state: not yet inside the records section, empty
accumulator, nothing emitted. -/
def initState : PState := ⟨false, [], []⟩

/-- One step of the `parse_price_records` loop, acting on the token of the
current line: a marker line turns `in_records` on; before the marker every
other line is skipped; a boundary emits the (non-empty) accumulator; a field
line assigns into the accumulator; other lines do nothing. -/
def stepToken (s : PState) (t : Token) : PState :=
  match t with
  | .marker => { s with inRecords := true }
  | .boundary =>
    if s.inRecords then
      if s.current.isEmpty then s
      else { s with current := [], acc := s.acc ++ [s.current] }
    else s
  | .field k v =>
    if s.inRecords then { s with current := dinsert k v s.current } else s
  | .ignorable => s

/-- Processing of one raw line: classify, then step. -/
def processLine (s : PState) (line : Chars) : PState :=
  stepToken s (classifyLine line)

/-- End-of-input rule of `parse_price_records` (lines 41-42): a non-empty
accumulator is emitted as the final record. -/
def finalize (s : PState) : List GenericRecord :=
  if s.current.isEmpty then s.acc else s.acc ++ [s.current]

/-- The record assembler of `parse_price_records`, as an explicit fold over
the line list. -/
def parseLines (lines : List Chars) : List GenericRecord :=
  finalize (List.foldl processLine initState lines)

/-- Embedding of `parse_price_records` (analyze_framery_pricing.py,
lines 16-44). -/
def parse_price_records (output : Chars) : List GenericRecord :=
  parseLines (splitLines output)

/-- The `price_level` field name. -/
def priceLevelKey : Chars := "price_level".data

/-- The base-price level literal. -/
def bStr : Chars := "B".data

/-- The surcharge level literal. -/
def xStr : Chars := "X".data

/-- Python `p.get('price_level') == 'B'` (analyze_framery_pricing.py,
line 59); a missing field compares unequal. -/
def isBaseRec (p : GenericRecord) : Bool :=
  dget priceLevelKey p == some bStr

/-- Python `p.get('price_level') == 'X'` (line 60). -/
def isSurchargeRec (p : GenericRecord) : Bool :=
  dget priceLevelKey p == some xStr

/-- Python `p.get('price_level') not in ['B', 'X']` (line 61), true in
particular when the field is missing. -/
def isCorruptRec (p : GenericRecord) : Bool :=
  !(isBaseRec p || isSurchargeRec p)

/-- The `Base` bucket of `analyze_manufacturer`
(analyze_framery_pricing.py, line 59). -/
def base_prices (prices : List GenericRecord) : List GenericRecord :=
  prices.filter isBaseRec

/-- The `Surcharge` bucket (line 60). -/
def surcharge_prices (prices : List GenericRecord) : List GenericRecord :=
  prices.filter isSurchargeRec

/-- The `Other` bucket, called `corrupt` in the source (line 61). -/
def corrupt_prices (prices : List GenericRecord) : List GenericRecord :=
  prices.filter isCorruptRec

/-- The aggregate `analyze_manufacturer` returns (analyze_framery_pricing.py,
lines 103-110), minus the purely presentational name field. -/
structure AnalysisResult where
  total : Nat
  base : Nat
  surcharges : Nat
  corrupt : Nat
  basePrices : List GenericRecord
deriving DecidableEq

/-- Embedding of the classification part of `analyze_manufacturer`. -/
def analyzeRecords (prices : List GenericRecord) : AnalysisResult :=
  ⟨prices.length, (base_prices prices).length, (surcharge_prices prices).length,
   (corrupt_prices prices).length, base_prices prices⟩

/-- The two branches of the key-findings report in `main`
(analyze_framery_pricing.py, lines 136-140): a missing base price is a
printed warning, not a raised error. -/
inductive Finding where
  | warning
  | ok
deriving DecidableEq

/-- Embedding of the `if r['base'] == 0` report branch of `main`. -/
def keyFinding (r : AnalysisResult) : Finding :=
  if r.base = 0 then .warning else .ok

/-- Python `set(xs) == set(ys)` on lists of strings: mutual containment. -/
def pySetEq (xs ys : List Chars) : Bool :=
  xs.all (fun x => ys.any (fun y => y == x)) &&
  ys.all (fun y => xs.any (fun x => x == y))

/-- The sharing decision of `main` in analyze_framery.py (lines 148-154):
every series' property-class set must equal the first series' set. -/
def all_same : List (List Chars) → Bool
  | [] => true
  | first :: rest => (first :: rest).all (fun d => pySetEq d first)

/-- The sharing decision specialized to two series, the shape the claims
quantify over. -/
def sharedPair (A B : List Chars) : Bool := all_same [A, B]

/-- A parsed JSON scalar as produced by `json.loads` on the fields the
scripts read: string, number or boolean. -/
inductive JVal where
  | jstr (s : Chars)
  | jnum (n : Int)
  | jbool (b : Bool)
deriving DecidableEq

/-- A record of the JSON entry path: one parsed array element, used directly
by `comprehensive_pricing_investigation.py` with no value coercion. -/
abbrev JsonRecord := Dict JVal

/-- Python `record.get(k, d)` on a JSON record. -/
def jgetD (k : Chars) (d : JVal) (r : JsonRecord) : JVal :=
  match dget k r with
  | some v => v
  | none => d

/-- Python equality between a JSON value and a string literal: only a string
value can compare equal; numbers and booleans always compare unequal. -/
def pyEqStr (v : JVal) (s : Chars) : Bool :=
  match v with
  | .jstr t => t == s
  | _ => false

/-- The level key the JSON path reads (comprehensive_pricing_investigation.py,
line 60 uses `record.get('level', '')`). -/
def levelKey : Chars := "level".data

/-- The `level == 'B'` test of the JSON-path classifier (line 65). -/
def isBaseJson (r : JsonRecord) : Bool :=
  pyEqStr (jgetD levelKey (.jstr []) r) bStr

/-- The base-price sample dict built by the JSON-path classifier
(comprehensive_pricing_investigation.py, lines 60-73): missing fields are
replaced by the defaults of `.get` (empty string, or 0 for the price). -/
def baseSampleJson (r : JsonRecord) : JsonRecord :=
  [("article_nr".data, jgetD "article_nr".data (.jstr []) r),
   ("var_cond".data, jgetD "var_cond".data (.jstr []) r),
   ("price".data, jgetD "price".data (.jnum 0) r)]

/-- Modelled from the spec: the external query tool's canonical textual
rendering of a JSON scalar (the tool itself is outside this repository); the
form follows Python `str`: numbers by decimal notation, booleans as
`True`/`False`, strings unchanged. -/
def pyStr : JVal → Chars
  | .jstr s => s
  | .jnum n => (toString n).data
  | .jbool b => if b then "True".data else "False".data

/-- Modelled from the spec: one `name: 'value'` field line of the text dump
of a logical row (the dump is produced by the external query tool). -/
def renderFieldLine (k v : Chars) : Chars :=
  k ++ [':', ' ', quoteChar] ++ v ++ [quoteChar]

/-- Modelled from the spec: the text dump of one logical row, a boundary line
followed by one field line per field. -/
def dumpRow (row : JsonRecord) : List Chars :=
  "Record 0".data :: row.map (fun kv => renderFieldLine kv.1 (pyStr kv.2))

/-- Field projection of a JSON-path record: the requested fields that are
actually present, in request order, with their native JSON values (the code
performs no stringification).  Comparison definition for the round-trip
claim. -/
def projJson (fields : List Chars) (r : JsonRecord) : JsonRecord :=
  fields.filterMap (fun f => (dget f r).map (fun v => (f, v)))

/-- Field projection of a text-path record, injected into the JSON value
space as strings so the two entry paths can be compared field for field. -/
def projText (fields : List Chars) (r : GenericRecord) : JsonRecord :=
  fields.filterMap (fun f => (dget f r).map (fun v => (f, JVal.jstr v)))

/-- Scan to the next single quote: the characters strictly before it, or
`none` when no quote follows (the regex `[^']*'` then fails). -/
def scanToQuote : Chars → Option Chars
  | [] => none
  | c :: cs => if c = quoteChar then some [] else (scanToQuote cs).map (c :: ·)

/-- Attempt of the regex `pat([^']*)'` at the start of `l`: the literal part
must be a prefix, then the capture runs to the next quote. -/
def matchQuotedAt (pat l : Chars) : Option Chars :=
  if pat.isPrefixOf l then scanToQuote (l.drop pat.length) else none

/-- Python `re.search(rf"pat([^']*)'", line)`: leftmost position at which the
whole pattern matches, returning the capture. -/
def reSearchQuoted (pat : Chars) : Chars → Option Chars
  | [] => matchQuotedAt pat []
  | c :: cs =>
    match matchQuotedAt pat (c :: cs) with
    | some v => some v
    | none => reSearchQuoted pat cs

/-- The containment test `f"{field}:" in line` of `extract_price_data`
(compare_framery_fast.py, line 33). -/
def fieldColonPat (f : Chars) : Chars := f ++ [':']

/-- The literal part of the regex `rf"{field}: '([^']*)'"` (line 34). -/
def fieldQuotePat (f : Chars) : Chars := f ++ [':', ' ', quoteChar]

/-- The fields `extract_price_data` looks for (line 32). -/
def priceFields : List Chars :=
  ["article_nr".data, "var_cond".data, "price_level".data]

/-- One field's attempt of the inner loop of `extract_price_data`: when the
`field:` text occurs in the line and the quoted-value regex matches, assign
the capture; otherwise leave the record unchanged. -/
def updOne (line : Chars) (r : GenericRecord) (f : Chars) : GenericRecord :=
  if containsSub (fieldColonPat f) line then
    match reSearchQuoted (fieldQuotePat f) line with
    | some v => dinsert f v r
    | none => r
  else r

/-- The whole inner loop of `extract_price_data` over the three fields of
interest. -/
def updateFieldsLine (line : Chars) (r : GenericRecord) : GenericRecord :=
  priceFields.foldl (updOne line) r

/-- Loop state of `extract_price_data`: the current record and the emitted
records (this parser has no marker gate). -/
structure EPState where
  current : GenericRecord
  acc : List GenericRecord
deriving DecidableEq

/-- One step of the `extract_price_data` loop: a line starting with `Record`
(no trailing space here) closes the current record; every other line runs the
field extraction. -/
def epStep (s : EPState) (line : Chars) : EPState :=
  if ("Record".data).isPrefixOf line then
    if s.current.isEmpty then ⟨[], s.acc⟩ else ⟨[], s.acc ++ [s.current]⟩
  else ⟨updateFieldsLine line s.current, s.acc⟩

/-- End-of-input rule of `extract_price_data` (lines 38-39). -/
def epFinalize (s : EPState) : List GenericRecord :=
  if s.current.isEmpty then s.acc else s.acc ++ [s.current]

/-- Embedding of `extract_price_data` (compare_framery_fast.py,
lines 21-41). -/
def extract_price_data (output : Chars) : List GenericRecord :=
  epFinalize (List.foldl epStep ⟨[], []⟩ (splitLines output))

/-- The value the claim's words prescribe for a quoted field line: the text
strictly between the first and the last quote character on the line.  Stated
only for comparison against the extractors. -/
def betweenFirstLastQuote (line : Chars) : Option Chars :=
  match line.dropWhile (· != quoteChar) with
  | [] => none
  | _ :: rest =>
    match rest.reverse.dropWhile (· != quoteChar) with
    | [] => none
    | _ :: rev => some rev.reverse

/-- Whether a token is a field token. -/
def isFieldTok : Token → Bool
  | .field _ _ => true
  | _ => false

/-- Whether a token is a boundary token. -/
def isBoundaryTok : Token → Bool
  | .boundary => true
  | _ => false

/-- Whether the leading segment of a token stream (before the first boundary)
contains a field token. -/
def segHasField (toks : List Token) : Bool :=
  (toks.takeWhile (fun t => !isBoundaryTok t)).any isFieldTok

/-- Modelled from the claim's words: the number of boundary tokens followed
by at least one field token before the next boundary or end of input. -/
def boundariesWithBody : List Token → Nat
  | [] => 0
  | t :: rest =>
    (if isBoundaryTok t && segHasField rest then 1 else 0) + boundariesWithBody rest

/-! ## Basic dictionary lemmas -/

theorem dget_dinsert {α : Type} (k k' : Chars) (v : α) (r : Dict α) :
    dget k (dinsert k' v r) = if k' = k then some v else dget k r := by
  induction r with
  | nil => simp [dget, dinsert]
  | cons hd tl ih =>
    obtain ⟨k2, v2⟩ := hd
    simp only [dinsert]
    by_cases h1 : k2 = k'
    · rw [if_pos h1]
      by_cases h2 : k' = k
      · simp [dget, h2]
      · simp [dget, h1, h2]
    · rw [if_neg h1]
      simp only [dget]
      by_cases h2 : k2 = k
      · have h3 : ¬k' = k := fun hh => h1 (h2.trans hh.symm)
        simp [h2, h3]
      · simp [h2, ih]

theorem dinsert_isEmpty {α : Type} (k : Chars) (v : α) (r : Dict α) :
    (dinsert k v r).isEmpty = false := by
  cases r with
  | nil => rfl
  | cons hd tl =>
    obtain ⟨k2, v2⟩ := hd
    by_cases h : k2 = k <;> simp [dinsert, h]

theorem dinsert_of_not_mem {α : Type} (k : Chars) (v : α) (r : Dict α)
    (h : k ∉ r.map Prod.fst) : dinsert k v r = r ++ [(k, v)] := by
  induction r with
  | nil => rfl
  | cons hd tl ih =>
    obtain ⟨k2, v2⟩ := hd
    simp only [List.map_cons, List.mem_cons] at h
    push_neg at h
    have h2 : ¬k2 = k := fun hh => h.1 hh.symm
    simp [dinsert, h2, ih h.2]

theorem dget_map {α β : Type} (g : α → β) (k : Chars) (l : Dict α) :
    dget k (l.map (fun kv => (kv.1, g kv.2))) = (dget k l).map g := by
  induction l with
  | nil => rfl
  | cons hd tl ih =>
    obtain ⟨k2, v2⟩ := hd
    by_cases h : k2 = k <;> simp [dget, h, ih]

theorem dget_mem {α : Type} (k : Chars) (v : α) (l : Dict α)
    (h : dget k l = some v) : (k, v) ∈ l := by
  induction l with
  | nil => simp [dget] at h
  | cons hd tl ih =>
    obtain ⟨k2, v2⟩ := hd
    by_cases h2 : k2 = k
    · subst h2
      simp [dget] at h
      simp [h]
    · simp [dget, h2] at h
      exact List.mem_cons_of_mem _ (ih h)

/-! ## C2: the price-level partition -/

theorem not_base_and_surcharge (p : GenericRecord) :
    ¬(isBaseRec p = true ∧ isSurchargeRec p = true) := by
  rintro ⟨hB, hX⟩
  unfold isBaseRec at hB
  unfold isSurchargeRec at hX
  have h1 : dget priceLevelKey p = some bStr := eq_of_beq hB
  have h2 : dget priceLevelKey p = some xStr := eq_of_beq hX
  rw [h1] at h2
  exact absurd h2 (by decide)

/-- C2: every record is classified into exactly one of Base, Surcharge and
Other (the source's `corrupt`), and the sizes of the three buckets sum to the
total record count. -/
theorem c2_price_partition (prices : List GenericRecord) :
    (base_prices prices).length + (surcharge_prices prices).length +
      (corrupt_prices prices).length = prices.length ∧
    ∀ p : GenericRecord,
      ((if isBaseRec p then 1 else 0) + (if isSurchargeRec p then 1 else 0) +
        (if isCorruptRec p then 1 else 0) : Nat) = 1 := by
  constructor
  · induction prices with
    | nil => rfl
    | cons p ps ih =>
      by_cases hB : isBaseRec p = true
      · have hX : isSurchargeRec p = false := by
          cases hX2 : isSurchargeRec p
          · rfl
          · exact absurd ⟨hB, hX2⟩ (not_base_and_surcharge p)
        have hC : isCorruptRec p = false := by simp [isCorruptRec, hB]
        simp [base_prices, surcharge_prices, corrupt_prices,
          List.filter_cons, hB, hX, hC] at *
        omega
      · rw [Bool.not_eq_true] at hB
        by_cases hX : isSurchargeRec p = true
        · have hC : isCorruptRec p = false := by simp [isCorruptRec, hX]
          simp [base_prices, surcharge_prices, corrupt_prices,
            List.filter_cons, hB, hX, hC] at *
          omega
        · rw [Bool.not_eq_true] at hX
          have hC : isCorruptRec p = true := by simp [isCorruptRec, hB, hX]
          simp [base_prices, surcharge_prices, corrupt_prices,
            List.filter_cons, hB, hX, hC] at *
          omega
  · intro p
    by_cases hB : isBaseRec p = true
    · have hX : isSurchargeRec p = false := by
        cases hX2 : isSurchargeRec p
        · rfl
        · exact absurd ⟨hB, hX2⟩ (not_base_and_surcharge p)
      simp [hB, hX, isCorruptRec]
    · rw [Bool.not_eq_true] at hB
      by_cases hX : isSurchargeRec p = true
      · simp [hB, hX, isCorruptRec]
      · rw [Bool.not_eq_true] at hX
        simp [hB, hX, isCorruptRec]

/-! ## C5 and C9: the sharing heuristic -/

theorem pySetEq_iff (xs ys : List Chars) :
    pySetEq xs ys = true ↔ ∀ x : Chars, x ∈ xs ↔ x ∈ ys := by
  simp only [pySetEq, Bool.and_eq_true, List.all_eq_true, List.any_eq_true,
    beq_iff_eq]
  constructor
  · rintro ⟨h1, h2⟩ x
    constructor
    · intro hx
      obtain ⟨y, hy, rfl⟩ := h1 x hx
      exact hy
    · intro hx
      obtain ⟨y, hy, rfl⟩ := h2 x hx
      exact hy
  · intro h
    exact ⟨fun x hx => ⟨x, (h x).mp hx, rfl⟩, fun y hy => ⟨y, (h y).mpr hy, rfl⟩⟩

theorem pySetEq_refl (A : List Chars) : pySetEq A A = true := by
  rw [pySetEq_iff]
  intro x
  exact Iff.rfl

/-- C5: for two or more series, the sharing detector answers "shared"
exactly when all the property-class sets are equal as string sets; the
substring diagnostic plays no role in this characterization. -/
theorem c5_sharing_verdict (sd : List (List Chars)) (h : 2 ≤ sd.length) :
    all_same sd = true ↔ ∀ A ∈ sd, ∀ B ∈ sd, ∀ x : Chars, (x ∈ A ↔ x ∈ B) := by
  cases sd with
  | nil => exact absurd h (by simp)
  | cons first rest =>
    simp only [all_same, List.all_eq_true]
    constructor
    · intro hall A hA B hB x
      have h1 := (pySetEq_iff A first).mp (hall A hA)
      have h2 := (pySetEq_iff B first).mp (hall B hB)
      exact (h1 x).trans (h2 x).symm
    · intro hpair d hd
      exact (pySetEq_iff d first).mpr
        (fun x => hpair d hd first (List.mem_cons_self _ _) x)

/-- C5 witness: two equal singleton class sets are judged "shared". -/
theorem c5_witness : all_same [["a".data], ["a".data]] = true := by
  apply (c5_sharing_verdict [["a".data], ["a".data]] (by decide)).mpr
  intro A hA B hB x
  have hA' : A = ["a".data] := by
    rcases List.mem_cons.mp hA with h | h
    · exact h
    · simpa using h
  have hB' : B = ["a".data] := by
    rcases List.mem_cons.mp hB with h | h
    · exact h
    · simpa using h
  rw [hA', hB']

/-- C9: the pairwise sharing decision is symmetric, and reflexive on any
non-empty class set (in fact on every set). -/
theorem c9_symmetric_reflexive (A B : List Chars) :
    sharedPair A B = sharedPair B A ∧ (A ≠ [] → sharedPair A A = true) := by
  have hA : sharedPair A B = pySetEq B A := by
    simp [sharedPair, all_same, pySetEq_refl A]
  have hB : sharedPair B A = pySetEq A B := by
    simp [sharedPair, all_same, pySetEq_refl B]
  constructor
  · rw [hA, hB]
    cases h1 : pySetEq A B <;> cases h2 : pySetEq B A <;> try rfl
    · exact absurd ((pySetEq_iff A B).mpr
        (fun x => ((pySetEq_iff B A).mp h2 x).symm)) (by simp [h1])
    · exact absurd ((pySetEq_iff B A).mpr
        (fun x => ((pySetEq_iff A B).mp h1 x).symm)) (by simp [h2])
  · intro _
    simp [sharedPair, all_same, pySetEq_refl A]

/-- C9 witness at concrete class sets. -/
theorem c9_witness :
    sharedPair ["a".data] ["b".data] = sharedPair ["b".data] ["a".data] ∧
    (["a".data] ≠ ([] : List Chars) → sharedPair ["a".data] ["a".data] = true) :=
  c9_symmetric_reflexive ["a".data] ["b".data]

/-! ## C7: zero base prices is reportable, not an error -/

/-- C7: on a stream with no Base record the classifier still returns an
ordinary result with an empty Base bucket, and the report branch yields the
warning finding, not an error. -/
theorem c7_zero_base_reportable (prices : List GenericRecord)
    (h : ∀ p ∈ prices, isBaseRec p = false) :
    (analyzeRecords prices).base = 0 ∧ (analyzeRecords prices).basePrices = [] ∧
      keyFinding (analyzeRecords prices) = Finding.warning := by
  have hnil : base_prices prices = [] := by
    apply List.filter_eq_nil_iff.mpr
    intro p hp
    simp [h p hp]
  refine ⟨?_, ?_, ?_⟩ <;> simp [analyzeRecords, keyFinding, hnil]

/-- C7 witness: a stream holding one surcharge record. -/
theorem c7_witness :
    (analyzeRecords [[(priceLevelKey, xStr)]]).base = 0 ∧
    (analyzeRecords [[(priceLevelKey, xStr)]]).basePrices = [] ∧
    keyFinding (analyzeRecords [[(priceLevelKey, xStr)]]) = Finding.warning :=
  c7_zero_base_reportable _ (by decide)

/-! ## C8: totality of the tokenizer and assembler -/

theorem stepToken_measure (s : PState) (t : Token) :
    (stepToken s t).acc.length +
        (if (stepToken s t).current.isEmpty then 0 else 1) ≤
      s.acc.length + (if s.current.isEmpty then 0 else 1) + 1 := by
  cases t with
  | marker => simp only [stepToken]; omega
  | boundary =>
    simp only [stepToken]
    by_cases hin : s.inRecords
    · by_cases hcur : s.current.isEmpty
      · simp [hin, hcur]
      · simp [hin, hcur, List.length_append]
    · simp [hin]
  | field k v =>
    simp only [stepToken]
    by_cases hin : s.inRecords
    · simp [hin, dinsert_isEmpty]
    · simp [hin]
  | ignorable => simp only [stepToken]; omega

theorem parse_measure (ls : List Chars) : ∀ s : PState,
    (finalize (List.foldl processLine s ls)).length ≤
      s.acc.length + (if s.current.isEmpty then 0 else 1) + ls.length := by
  induction ls with
  | nil =>
    intro s
    simp only [List.foldl_nil, finalize, List.length_nil]
    by_cases hcur : s.current.isEmpty <;> simp [hcur, List.length_append]
  | cons l ls ih =>
    intro s
    have h1 := ih (processLine s l)
    have h2 := stepToken_measure s (classifyLine l)
    simp only [processLine] at h1
    simp only [List.foldl_cons, processLine, List.length_cons]
    omega

theorem epStep_measure (s : EPState) (l : Chars) :
    (epStep s l).acc.length + (if (epStep s l).current.isEmpty then 0 else 1) ≤
      s.acc.length + (if s.current.isEmpty then 0 else 1) + 1 := by
  simp only [epStep]
  by_cases hb : ("Record".data).isPrefixOf l
  · by_cases hcur : s.current.isEmpty
    · simp [hb, hcur]
    · simp [hb, hcur, List.length_append]
  · simp only [if_neg hb]
    have h1 : (if (updateFieldsLine l s.current).isEmpty then 0 else 1 : Nat) ≤ 1 := by
      split <;> omega
    omega

theorem extract_measure (ls : List Chars) : ∀ s : EPState,
    (epFinalize (List.foldl epStep s ls)).length ≤
      s.acc.length + (if s.current.isEmpty then 0 else 1) + ls.length := by
  induction ls with
  | nil =>
    intro s
    simp only [List.foldl_nil, epFinalize, List.length_nil]
    by_cases hcur : s.current.isEmpty <;> simp [hcur, List.length_append]
  | cons l ls ih =>
    intro s
    have h1 := ih (epStep s l)
    have h2 := epStep_measure s l
    simp only [List.foldl_cons, List.length_cons]
    omega

/-- C8: both text parsers are total functions built from a total line
classifier: the assembler factors through `classifyLine` and `stepToken`, and
every input yields a record list bounded by the number of input lines, for
`parse_price_records` and `extract_price_data` alike. -/
theorem c8_tokenizer_assembler_total (output : Chars) :
    parse_price_records output =
      finalize (List.foldl stepToken initState
        ((splitLines output).map classifyLine)) ∧
    (parse_price_records output).length ≤ (splitLines output).length ∧
    (extract_price_data output).length ≤ (splitLines output).length := by
  refine ⟨?_, ?_, ?_⟩
  · rw [parse_price_records, parseLines, List.foldl_map]
    rfl
  · have h := parse_measure (splitLines output) initState
    simpa [parse_price_records, parseLines, initState] using h
  · have h := extract_measure (splitLines output) ⟨[], []⟩
    simpa [extract_price_data] using h

/-! ## C10: nothing is parsed before the marker line -/

theorem isPrefixOf_iff_exists (p : Chars) : ∀ l : Chars,
    p.isPrefixOf l = true ↔ ∃ t, l = p ++ t := by
  induction p with
  | nil =>
    intro l
    simp [List.isPrefixOf]
  | cons a as ih =>
    intro l
    cases l with
    | nil =>
      constructor
      · intro h
        simp [List.isPrefixOf] at h
      · rintro ⟨t, ht⟩
        cases ht
    | cons b bs =>
      constructor
      · intro h
        have h' : (a == b) = true ∧ as.isPrefixOf bs = true := by
          simpa [List.isPrefixOf, Bool.and_eq_true] using h
        obtain ⟨t, rfl⟩ := (ih bs).mp h'.2
        exact ⟨t, by rw [eq_of_beq h'.1]; rfl⟩
      · rintro ⟨t, ht⟩
        injection ht with h1 h2
        subst h1
        simp [List.isPrefixOf, (ih bs).mpr ⟨t, h2⟩]

theorem containsSub_iff (p : Chars) : ∀ l : Chars,
    containsSub p l = true ↔ ∃ s t, l = s ++ p ++ t := by
  intro l
  induction l with
  | nil =>
    simp only [containsSub, List.isEmpty_iff]
    constructor
    · intro h
      exact ⟨[], [], by simp [h]⟩
    · rintro ⟨s, t, hst⟩
      have h2 : s ++ p ++ t = [] := hst.symm
      simp only [List.append_eq_nil] at h2
      exact h2.1.2
  | cons c cs ih =>
    simp only [containsSub, Bool.or_eq_true, isPrefixOf_iff_exists, ih]
    constructor
    · rintro (⟨t, ht⟩ | ⟨s, t, hst⟩)
      · exact ⟨[], t, by simpa using ht⟩
      · exact ⟨c :: s, t, by simp [hst]⟩
    · rintro ⟨s, t, hst⟩
      cases s with
      | nil =>
        exact Or.inl ⟨t, by simpa using hst⟩
      | cons c2 s2 =>
        injection hst with h1 h2
        exact Or.inr ⟨s2, t, h2⟩

theorem splitLines_decomp (out : Chars) :
    ∃ l0 ls, splitLines out = l0 :: ls ∧ (∃ t, out = l0 ++ t) ∧
      (∀ l ∈ ls, ∃ s t, out = s ++ l ++ t) := by
  induction out with
  | nil => exact ⟨[], [], rfl, ⟨[], rfl⟩, by simp⟩
  | cons c cs ih =>
    obtain ⟨l0, ls, hsplit, ⟨t0, ht0⟩, hmem⟩ := ih
    by_cases hc : c = '\n'
    · refine ⟨[], l0 :: ls, ?_, ⟨c :: cs, rfl⟩, ?_⟩
      · simp only [splitLines]
        rw [hsplit]
        simp [hc]
      · intro l hl
        rcases List.mem_cons.mp hl with rfl | hl'
        · exact ⟨[c], t0, by rw [ht0]; rfl⟩
        · obtain ⟨s, t, hst⟩ := hmem l hl'
          exact ⟨c :: s, t, by rw [hst]; rfl⟩
    · refine ⟨c :: l0, ls, ?_, ⟨t0, by rw [ht0]; rfl⟩, ?_⟩
      · simp only [splitLines]
        rw [hsplit]
        simp [hc]
      · intro l hl
        obtain ⟨s, t, hst⟩ := hmem l hl
        exact ⟨c :: s, t, by rw [hst]; rfl⟩

theorem classifyLine_of_no_marker (l : Chars)
    (h : containsSub markerStr l = false) : classifyLine l ≠ Token.marker := by
  unfold classifyLine
  rw [h]
  simp only [Bool.false_eq_true, if_false]
  repeat' split
  all_goals simp

theorem stepToken_init_no_marker (t : Token) (h : t ≠ Token.marker) :
    stepToken initState t = initState := by
  cases t with
  | marker => exact absurd rfl h
  | boundary => rfl
  | field k v => rfl
  | ignorable => rfl

theorem foldl_init_no_marker (ls : List Chars)
    (h : ∀ l ∈ ls, containsSub markerStr l = false) :
    List.foldl processLine initState ls = initState := by
  induction ls with
  | nil => rfl
  | cons l ls ih =>
    have h1 : processLine initState l = initState :=
      stepToken_init_no_marker _ (classifyLine_of_no_marker l (h l (List.mem_cons_self _ _)))
    rw [List.foldl_cons, h1, ih (fun x hx => h x (List.mem_cons_of_mem _ hx))]

/-- C10: the marker gate of `parse_price_records`.  Lines before the first
occurrence of the `=== Records from ocd_price` marker contribute nothing, and
an input whose text never contains the marker parses to the empty record
list. -/
theorem c10_marker_gate (pre rest : List Chars) (output : Chars)
    (h1 : ∀ l ∈ pre, containsSub markerStr l = false)
    (h2 : containsSub markerStr output = false) :
    parseLines (pre ++ rest) = parseLines rest ∧ parse_price_records output = [] := by
  constructor
  · simp only [parseLines, List.foldl_append, foldl_init_no_marker pre h1]
  · have hlines : ∀ l ∈ splitLines output, containsSub markerStr l = false := by
      intro l hl
      by_contra hcon
      rw [Bool.not_eq_false] at hcon
      obtain ⟨s, t, hst⟩ := (containsSub_iff markerStr l).mp hcon
      obtain ⟨l0, ls, hsp, ⟨t0, ht0⟩, hmem⟩ := splitLines_decomp output
      rw [hsp] at hl
      rcases List.mem_cons.mp hl with rfl | hl'
      · have hout : containsSub markerStr output = true := by
          apply (containsSub_iff markerStr output).mpr
          refine ⟨s, t ++ t0, ?_⟩
          rw [ht0, hst]
          simp
      
        rw [hout] at h2
        cases h2
      · obtain ⟨s2, t2, hst2⟩ := hmem l hl'
        have hout : containsSub markerStr output = true := by
          apply (containsSub_iff markerStr output).mpr
          refine ⟨s2 ++ s, t ++ t2, ?_⟩
          rw [hst2, hst]
          simp
        rw [hout] at h2
        cases h2
    rw [parse_price_records, parseLines, foldl_init_no_marker _ hlines]
    rfl

/-- C10 witness: boundary and field lines before the marker are ignored, and
a markerless input yields no records. -/
theorem c10_witness :
    parseLines (["Record 0".data, "a: ".data ++ [quoteChar, 'x', quoteChar]] ++
        [markerStr, "Record 0".data, "b: ".data ++ [quoteChar, 'y', quoteChar]]) =
      parseLines [markerStr, "Record 0".data, "b: ".data ++ [quoteChar, 'y', quoteChar]] ∧
    parse_price_records ("Record 0".data ++ '\n' :: "b: ".data ++ [quoteChar, 'y', quoteChar]) = [] :=
  c10_marker_gate _ _ _ (by decide) (by decide)

/-! ## C1: records emitted versus boundaries with a non-empty body -/

theorem assemble_segment_count (toks : List Token) :
    ∀ (cur : GenericRecord) (acc : List GenericRecord),
    (finalize (List.foldl stepToken ⟨true, cur, acc⟩ toks)).length =
      acc.length + (if !cur.isEmpty || segHasField toks then 1 else 0) +
        boundariesWithBody toks := by
  induction toks with
  | nil =>
    intro cur acc
    simp only [List.foldl_nil, finalize, segHasField, boundariesWithBody,
      List.takeWhile_nil, List.any_nil, Bool.or_false]
    by_cases hcur : cur.isEmpty <;> simp [hcur, List.length_append]
  | cons t rest ih =>
    intro cur acc
    cases t with
    | marker =>
      simp only [List.foldl_cons, stepToken]
      rw [ih cur acc]
      simp [segHasField, boundariesWithBody, isBoundaryTok, isFieldTok,
        List.takeWhile_cons, List.any_cons]
    | ignorable =>
      simp only [List.foldl_cons, stepToken]
      rw [ih cur acc]
      simp [segHasField, boundariesWithBody, isBoundaryTok, isFieldTok,
        List.takeWhile_cons, List.any_cons]
    | field k v =>
      simp only [List.foldl_cons, stepToken, if_pos]
      rw [ih (dinsert k v cur) acc]
      simp [segHasField, boundariesWithBody, isBoundaryTok, isFieldTok,
        List.takeWhile_cons, List.any_cons, dinsert_isEmpty]
    | boundary =>
      by_cases hcur : cur.isEmpty
      · have hstep : stepToken ⟨true, cur, acc⟩ Token.boundary = ⟨true, cur, acc⟩ := by
          simp [stepToken, hcur]
        simp only [List.foldl_cons, hstep]
        rw [ih cur acc]
        simp only [segHasField, boundariesWithBody, isBoundaryTok,
          List.takeWhile_cons]
        simp [hcur]
        omega
      · have hstep : stepToken ⟨true, cur, acc⟩ Token.boundary =
            ⟨true, [], acc ++ [cur]⟩ := by
          simp [stepToken, hcur]
        simp only [List.foldl_cons, hstep]
        rw [ih [] (acc ++ [cur])]
        simp only [segHasField, boundariesWithBody, isBoundaryTok,
          List.takeWhile_cons]
        simp only [hcur, List.length_append]
        by_cases hf : segHasField rest <;> simp [hf, segHasField] <;> omega

/-- C1 as amended: provided no field line precedes the first boundary line of
the section after the marker, the number of records `parse_price_records`
emits equals the number of boundary lines followed by at least one field line
before the next boundary or end of input. -/
theorem c1_boundary_body_count (lines : List Chars)
    (h : segHasField (lines.map classifyLine) = false) :
    (parseLines (markerStr :: lines)).length =
      boundariesWithBody (lines.map classifyLine) := by
  have hm : classifyLine markerStr = Token.marker := by decide
  have hmap : List.foldl processLine (⟨true, [], []⟩ : PState) lines =
      List.foldl stepToken ⟨true, [], []⟩ (lines.map classifyLine) := by
    rw [List.foldl_map]
    rfl
  simp only [parseLines, List.foldl_cons, processLine, hm]
  have hstep : stepToken initState Token.marker = ⟨true, [], []⟩ := rfl
  rw [hstep, hmap, assemble_segment_count (lines.map classifyLine) [] []]
  simp [h]

/-- C1 witness: one boundary followed by one field line yields one record. -/
theorem c1_witness :
    segHasField (List.map classifyLine
      ["Record 0".data, "a: ".data ++ [quoteChar, 'x', quoteChar]]) = false ∧
    (parseLines (markerStr ::
      ["Record 0".data, "a: ".data ++ [quoteChar, 'x', quoteChar]])).length =
      boundariesWithBody (List.map classifyLine
        ["Record 0".data, "a: ".data ++ [quoteChar, 'x', quoteChar]]) :=
  ⟨by decide, c1_boundary_body_count _ (by decide)⟩

/-- C1 counterexample: a field line between the marker and the first boundary
is accumulated and later emitted as a record of its own, so two records are
emitted although only one boundary has a non-empty body. -/
theorem c1_counterexample :
    (parseLines [markerStr, "a: ".data ++ [quoteChar, 'x', quoteChar],
        "Record 0".data, "b: ".data ++ [quoteChar, 'y', quoteChar]]).length = 2 ∧
    boundariesWithBody (List.map classifyLine
      [markerStr, "a: ".data ++ [quoteChar, 'x', quoteChar],
        "Record 0".data, "b: ".data ++ [quoteChar, 'y', quoteChar]]) = 1 := by
  decide

/-! ## C4: quoted-value extraction -/

theorem isPrefixOf_append_self (p : Chars) : ∀ t : Chars,
    p.isPrefixOf (p ++ t) = true := by
  induction p with
  | nil => intro t; simp [List.isPrefixOf]
  | cons a as ih => intro t; simp [List.isPrefixOf, ih]

theorem scanToQuote_append (v rest : Chars) (h : quoteChar ∉ v) :
    scanToQuote (v ++ quoteChar :: rest) = some v := by
  induction v with
  | nil => simp [scanToQuote]
  | cons c cs ih =>
    have hc : ¬c = quoteChar := fun hq => h (hq ▸ List.mem_cons_self c cs)
    have hcs : quoteChar ∉ cs := fun hm => h (List.mem_cons_of_mem c hm)
    simp [scanToQuote, hc, ih hcs]

theorem reSearchQuoted_of_matchAt (pat l v : Chars)
    (h : matchQuotedAt pat l = some v) : reSearchQuoted pat l = some v := by
  cases l with
  | nil => simpa [reSearchQuoted] using h
  | cons c cs => simp [reSearchQuoted, h]

/-- C4 as amended: on a field line whose quoted value contains no quote
character, the regex extractor of `extract_price_data` returns exactly the
text strictly between the opening quote and the NEXT quote character (not the
last); in particular an empty quoted value survives as the empty string. -/
theorem c4_next_quote_extraction (f v rest : Chars) (h : quoteChar ∉ v) :
    reSearchQuoted (fieldQuotePat f) (fieldQuotePat f ++ v ++ quoteChar :: rest) =
      some v := by
  apply reSearchQuoted_of_matchAt
  unfold matchQuotedAt
  rw [show fieldQuotePat f ++ v ++ quoteChar :: rest =
    fieldQuotePat f ++ (v ++ quoteChar :: rest) from by simp]
  rw [isPrefixOf_append_self]
  simp only [if_true]
  rw [List.drop_left]
  exact scanToQuote_append v rest h

/-- C4 witness: the empty quoted value of a `var_cond: ''` line survives
extraction as the empty string. -/
theorem c4_witness :
    quoteChar ∉ ([] : Chars) ∧
    reSearchQuoted (fieldQuotePat "var_cond".data)
      (fieldQuotePat "var_cond".data ++ [] ++ quoteChar :: []) = some [] :=
  ⟨by decide, c4_next_quote_extraction "var_cond".data [] [] (by decide)⟩

/-- C4 counterexample: on the line `var_cond: 'a'b'` the extractor returns
`a`, the text up to the NEXT quote, not `a'b`, the text strictly between the
first and the last quote, and the two differ. -/
theorem c4_counterexample :
    reSearchQuoted (fieldQuotePat "var_cond".data)
        ("var_cond: ".data ++ [quoteChar, 'a', quoteChar, 'b', quoteChar]) =
      some ['a'] ∧
    betweenFirstLastQuote
        ("var_cond: ".data ++ [quoteChar, 'a', quoteChar, 'b', quoteChar]) =
      some ['a', quoteChar, 'b'] ∧
    updateFieldsLine
        ("var_cond: ".data ++ [quoteChar, 'a', quoteChar, 'b', quoteChar]) [] =
      [("var_cond".data, ['a'])] ∧
    (['a'] : Chars) ≠ ['a', quoteChar, 'b'] := by
  decide

/-! ## C6: no default value is ever synthesized by the text extractor -/

theorem dget_foldl_updOne (line : Chars) (fs : List Chars) :
    ∀ (r : GenericRecord) (k v : Chars),
    dget k (fs.foldl (updOne line) r) = some v →
    dget k r = some v ∨
      (k ∈ fs ∧ reSearchQuoted (fieldQuotePat k) line = some v) := by
  induction fs with
  | nil =>
    intro r k v h
    exact Or.inl h
  | cons f fs ih =>
    intro r k v h
    simp only [List.foldl_cons] at h
    rcases ih (updOne line r f) k v h with h1 | ⟨hmem, hre⟩
    · unfold updOne at h1
      by_cases hc : containsSub (fieldColonPat f) line = true
      · rw [if_pos hc] at h1
        cases hre2 : reSearchQuoted (fieldQuotePat f) line with
        | none =>
          rw [hre2] at h1
          exact Or.inl h1
        | some w =>
          rw [hre2] at h1
          rw [dget_dinsert] at h1
          by_cases hfk : f = k
          · subst hfk
            rw [if_pos rfl] at h1
            exact Or.inr ⟨List.mem_cons_self _ _, by rw [hre2, h1]⟩
          · rw [if_neg hfk] at h1
            exact Or.inl h1
      · rw [if_neg hc] at h1
        exact Or.inl h1
    · exact Or.inr ⟨List.mem_cons_of_mem _ hmem, hre⟩

theorem extract_no_synthesis_inv (L : List Chars) (ls : List Chars) :
    ∀ s : EPState, (∀ l ∈ ls, l ∈ L) →
    (∀ r ∈ s.acc, ∀ k v : Chars, dget k r = some v →
      k ∈ priceFields ∧ ∃ line ∈ L, reSearchQuoted (fieldQuotePat k) line = some v) →
    (∀ k v : Chars, dget k s.current = some v →
      k ∈ priceFields ∧ ∃ line ∈ L, reSearchQuoted (fieldQuotePat k) line = some v) →
    ∀ r ∈ epFinalize (List.foldl epStep s ls), ∀ k v : Chars, dget k r = some v →
      k ∈ priceFields ∧ ∃ line ∈ L, reSearchQuoted (fieldQuotePat k) line = some v := by
  induction ls with
  | nil =>
    intro s _ hacc hcur r hr
    unfold epFinalize at hr
    simp only [List.foldl_nil] at hr
    by_cases hce : s.current.isEmpty
    · rw [if_pos hce] at hr
      exact hacc r hr
    · rw [if_neg hce] at hr
      rcases List.mem_append.mp hr with hr1 | hr2
      · exact hacc r hr1
      · rw [List.mem_singleton] at hr2
        subst hr2
        exact hcur
  | cons l ls ih =>
    intro s hsub hacc hcur
    simp only [List.foldl_cons]
    apply ih (epStep s l) (fun x hx => hsub x (List.mem_cons_of_mem _ hx))
    · unfold epStep
      by_cases hb : ("Record".data).isPrefixOf l = true
      · rw [if_pos hb]
        by_cases hce : s.current.isEmpty
        · rw [if_pos hce]
          exact hacc
        · rw [if_neg hce]
          intro r hr
          rcases List.mem_append.mp hr with hr1 | hr2
          · exact hacc r hr1
          · rw [List.mem_singleton] at hr2
            subst hr2
            exact hcur
      · rw [if_neg hb]
        exact hacc
    · unfold epStep
      by_cases hb : ("Record".data).isPrefixOf l = true
      · rw [if_pos hb]
        by_cases hce : s.current.isEmpty
        · rw [if_pos hce]
          intro k v hkv
          simp [dget] at hkv
        · rw [if_neg hce]
          intro k v hkv
          simp [dget] at hkv
      · rw [if_neg hb]
        intro k v hkv
        rcases dget_foldl_updOne l priceFields s.current k v hkv with h1 | ⟨hmem, hre⟩
        · exact hcur k v h1
        · exact ⟨hmem, l, hsub l (List.mem_cons_self _ _), hre⟩

/-- C6 as amended: the text-path extractor never synthesizes a field: every
field of every record `extract_price_data` emits is one of the requested
field names, and its value is exactly what the quoted-value regex extracted
from some input line. -/
theorem c6_no_default_synthesis (output : Chars) (r : GenericRecord)
    (hr : r ∈ extract_price_data output) (k v : Chars)
    (hv : dget k r = some v) :
    k ∈ priceFields ∧
      ∃ line ∈ splitLines output, reSearchQuoted (fieldQuotePat k) line = some v := by
  have h := extract_no_synthesis_inv (splitLines output) (splitLines output)
    ⟨[], []⟩ (fun l hl => hl) (by intro r2 hr2; simp at hr2)
    (by intro k2 v2 hkv; simp [dget] at hkv)
  exact h r hr k v hv

/-- C6 witness: the single field extracted from a `var_cond: 'x'` line is a
requested field whose value comes from the regex extraction. -/
theorem c6_witness :
    "var_cond".data ∈ priceFields ∧
    ∃ line ∈ splitLines ("var_cond: ".data ++ [quoteChar, 'x', quoteChar]),
      reSearchQuoted (fieldQuotePat "var_cond".data) line = some ['x'] :=
  c6_no_default_synthesis ("var_cond: ".data ++ [quoteChar, 'x', quoteChar])
    [("var_cond".data, ['x'])] (by decide) "var_cond".data ['x'] (by decide)

/-- C6 counterexample: the JSON-path sample builder of
`comprehensive_pricing_investigation.py` substitutes the `.get` default for a
missing field, so a record lacking `var_cond` and a record carrying the empty
string become indistinguishable at that layer. -/
theorem c6_counterexample :
    baseSampleJson [(levelKey, JVal.jstr bStr)] =
      baseSampleJson [(levelKey, JVal.jstr bStr), ("var_cond".data, JVal.jstr [])] ∧
    dget "var_cond".data [(levelKey, JVal.jstr bStr)] = (none : Option JVal) ∧
    dget "var_cond".data [(levelKey, JVal.jstr bStr), ("var_cond".data, JVal.jstr [])] =
      some (JVal.jstr []) := by
  decide

/-! ## C3: JSON path versus text path -/

theorem foldl_render_fields (row : JsonRecord) :
    ∀ (cur : GenericRecord) (acc : List GenericRecord),
    (∀ kv ∈ row, classifyLine (renderFieldLine kv.1 (pyStr kv.2)) =
      Token.field kv.1 (pyStr kv.2)) →
    List.foldl processLine ⟨true, cur, acc⟩
        (row.map (fun kv => renderFieldLine kv.1 (pyStr kv.2))) =
      ⟨true, row.foldl (fun c kv => dinsert kv.1 (pyStr kv.2) c) cur, acc⟩ := by
  induction row with
  | nil => intro cur acc _; rfl
  | cons kv row ih =>
    intro cur acc htok
    have h1 := htok kv (List.mem_cons_self _ _)
    simp only [List.map_cons, List.foldl_cons, processLine, h1]
    have hstep : stepToken ⟨true, cur, acc⟩ (Token.field kv.1 (pyStr kv.2)) =
        ⟨true, dinsert kv.1 (pyStr kv.2) cur, acc⟩ := rfl
    rw [hstep]
    exact ih _ _ (fun kv2 h2 => htok kv2 (List.mem_cons_of_mem _ h2))

theorem foldl_dinsert_append (row : JsonRecord) :
    ∀ cur : GenericRecord,
    (row.map Prod.fst).Nodup →
    (∀ kv ∈ row, kv.1 ∉ cur.map Prod.fst) →
    row.foldl (fun c kv => dinsert kv.1 (pyStr kv.2) c) cur =
      cur ++ row.map (fun kv => (kv.1, pyStr kv.2)) := by
  induction row with
  | nil => intro cur _ _; simp
  | cons kv row ih =>
    intro cur hnd hcur
    simp only [List.foldl_cons]
    rw [dinsert_of_not_mem _ _ _ (hcur kv (List.mem_cons_self _ _))]
    simp only [List.map_cons] at hnd
    have hnd' := List.nodup_cons.mp hnd
    have hcur2 : ∀ kv2 ∈ row, kv2.1 ∉ (cur ++ [(kv.1, pyStr kv.2)]).map Prod.fst := by
      intro kv2 h2
      rw [List.map_append, List.mem_append]
      push_neg
      refine ⟨hcur kv2 (List.mem_cons_of_mem _ h2), ?_⟩
      simp only [List.map_cons, List.map_nil, List.mem_singleton]
      intro hcontr
      exact hnd'.1 (hcontr ▸ List.mem_map_of_mem Prod.fst h2)
    rw [ih (cur ++ [(kv.1, pyStr kv.2)]) hnd'.2 hcur2]
    simp

/-- C3 as amended: a logical row all of whose values are JSON strings round
trips: the text dump of the row parses back to its stringified record, and
the projections of the JSON-path record and of the text-path record agree on
every field list.  (The counterexample shows this fails for number-valued
fields, which the code does not stringify.) -/
theorem c3_json_text_agreement (row : JsonRecord) (fields : List Chars)
    (hne : row ≠ [])
    (hstr : ∀ kv ∈ row, ∃ s : Chars, kv.2 = JVal.jstr s)
    (hnd : (row.map Prod.fst).Nodup)
    (htok : ∀ kv ∈ row, classifyLine (renderFieldLine kv.1 (pyStr kv.2)) =
      Token.field kv.1 (pyStr kv.2)) :
    parseLines (markerStr :: dumpRow row) =
      [row.map (fun kv => (kv.1, pyStr kv.2))] ∧
    projJson fields row =
      projText fields (row.map (fun kv => (kv.1, pyStr kv.2))) := by
  constructor
  · have hm : classifyLine markerStr = Token.marker := by decide
    have hb : classifyLine ("Record 0".data) = Token.boundary := by decide
    simp only [parseLines, dumpRow, List.foldl_cons, processLine, hm, hb]
    have h1 : stepToken initState Token.marker = ⟨true, [], []⟩ := rfl
    have h2 : stepToken ⟨true, [], []⟩ Token.boundary = ⟨true, [], []⟩ := rfl
    rw [h1, h2, foldl_render_fields row [] [] htok,
      foldl_dinsert_append row [] hnd (by simp)]
    have hmapne : (row.map (fun kv => (kv.1, pyStr kv.2))).isEmpty = false := by
      cases hrow : row with
      | nil => exact absurd hrow hne
      | cons kv r2 => simp
    simp [finalize, hmapne]
  · induction fields with
    | nil => rfl
    | cons f fs ihf =>
      simp only [projJson, projText, List.filterMap_cons]
      rw [dget_map pyStr f row]
      cases hdf : dget f row with
      | none =>
        simp only [Option.map_none']
        exact ihf
      | some v =>
        obtain ⟨s, hs⟩ := hstr (f, v) (dget_mem f v row hdf)
        simp only at hs
        rw [hs]
        simp only [Option.map_some', pyStr]
        exact congrArg (List.cons (f, JVal.jstr s)) ihf
  
/-- C3 witness: a row holding the string-valued `price_level` field projects
identically through both entry paths. -/
theorem c3_witness :
    parseLines (markerStr :: dumpRow [(priceLevelKey, JVal.jstr bStr)]) =
      [[(priceLevelKey, JVal.jstr bStr)].map (fun kv => (kv.1, pyStr kv.2))] ∧
    projJson [priceLevelKey] [(priceLevelKey, JVal.jstr bStr)] =
      projText [priceLevelKey]
        ([(priceLevelKey, JVal.jstr bStr)].map (fun kv => (kv.1, pyStr kv.2))) :=
  c3_json_text_agreement [(priceLevelKey, JVal.jstr bStr)] [priceLevelKey]
    (by decide)
    (by
      intro kv hkv
      rw [List.mem_singleton] at hkv
      subst hkv
      exact ⟨bStr, rfl⟩)
    (by decide)
    (by
      intro kv hkv
      rw [List.mem_singleton] at hkv
      subst hkv
      decide)

/-- C3 counterexample: the same logical row carrying the number-valued
`price` field yields a JSON-path projection holding the native number and a
text-path projection holding its string rendering, and the two differ: the
code performs no canonical stringification on the JSON path. -/
theorem c3_counterexample :
    parseLines (markerStr ::
        dumpRow [(priceLevelKey, JVal.jstr bStr), ("price".data, JVal.jnum 1500)]) =
      [[(priceLevelKey, bStr), ("price".data, "1500".data)]] ∧
    projJson ["price".data]
        [(priceLevelKey, JVal.jstr bStr), ("price".data, JVal.jnum 1500)] =
      [("price".data, JVal.jnum 1500)] ∧
    projText ["price".data] [(priceLevelKey, bStr), ("price".data, "1500".data)] =
      [("price".data, JVal.jstr "1500".data)] ∧
    JVal.jnum 1500 ≠ JVal.jstr "1500".data := by
  decide
